import Mathlib

/-!
Verification of the `Ring` fixed-size ring buffer of `ring.go` from the
arg0net/collections repository, checked against its natural-language
specification.

The Go struct holds one backing slice `elements` plus two sub-slice views of
it: `right` (holding the logically-first elements, starting at some offset
into the backing store) and `left` (holding the wrapped-around elements).
In the code, `left` is only ever formed from `elements[:0]`, shrunk by
re-slicing or grown by `append` in place, so its start offset is always 0
and `cap(left) = len(elements)`; `right` is a sub-slice starting at offset
`rightStart`, so `cap(right) = len(elements) - rightStart`.  We therefore
embed the state as the backing list together with the three numbers
`rightStart`, `rightLen`, `leftLen`.  The Go zero value of the element type
is embedded as `default` of an `Inhabited` instance.

The spec names the `right` view "front" and the `left` view "wrap".
-/

namespace RingProof

/-- Go `copy(dst, src)`: copies `min (len dst) (len src)` elements to the
front of `dst`; yields the new contents of `dst` and the count copied. -/
def goCopy {α : Type} (dst src : List α) : List α × Nat :=
  let n := min dst.length src.length
  (src.take n ++ dst.drop n, n)

/-- Go `copy(l[i:], xs)` when `xs` fits (`i + xs.length ≤ l.length`):
overwrite the segment of `l` starting at `i` with `xs`. -/
def writeAt {α : Type} (l : List α) (i : Nat) (xs : List α) : List α :=
  l.take i ++ xs ++ l.drop (i + xs.length)

/-- The state of `Ring[T]` from `ring.go`: backing store plus the two views
`right = elements[rightStart : rightStart+rightLen]` and
`left = elements[0 : leftLen]`. -/
structure Ring (α : Type) where
  elements : List α
  rightStart : Nat
  rightLen : Nat
  leftLen : Nat
deriving DecidableEq

namespace Ring

variable {α : Type}

/-- `NewRing`: `make([]T, fixedSize)` is zero-initialized; both views empty. -/
def NewRing (α : Type) [Inhabited α] (fixedSize : Nat) : Ring α :=
  { elements := List.replicate fixedSize default
    rightStart := 0, rightLen := 0, leftLen := 0 }

/-- `Len()`: `len(r.left) + len(r.right)`. -/
def Len (r : Ring α) : Nat := r.leftLen + r.rightLen

/-- `Cap()`: `cap(r.elements)` (the backing slice is exactly its capacity). -/
def Cap (r : Ring α) : Nat := r.elements.length

/-- The contents of the `right` view. -/
def rightView (r : Ring α) : List α := (r.elements.drop r.rightStart).take r.rightLen

/-- The contents of the `left` view. -/
def leftView (r : Ring α) : List α := r.elements.take r.leftLen

/-- The logical sequence held by the ring: `right` then `left`. -/
def absView (r : Ring α) : List α := r.rightView ++ r.leftView

/-- `PushBack`: append to `right` while it has spare capacity
(`cap(r.right) > len(r.right)`, i.e. `rightStart + rightLen < len(elements)`);
report full when `len(left)+len(right) == cap(elements)`; otherwise wrap
around by appending to `left` (writing physical slot `leftLen`). -/
def PushBack (r : Ring α) (e : α) : Ring α × Bool :=
  if r.rightStart + r.rightLen < r.elements.length then
    ({ r with elements := r.elements.set (r.rightStart + r.rightLen) e
              rightLen := r.rightLen + 1 }, true)
  else if r.leftLen + r.rightLen = r.elements.length then
    (r, false)
  else
    ({ r with elements := r.elements.set r.leftLen e
              leftLen := r.leftLen + 1 }, true)

/-- `PopFront`: empty iff `len(r.right) == 0`; otherwise read `right[0]`,
zero that slot, advance the view (`r.right = r.right[1:]`), and if the
advanced view has no spare capacity left (`cap(r.right) == 0`, i.e.
`rightStart + 1 = len(elements)`) swap the views. -/
def PopFront [Inhabited α] (r : Ring α) : Ring α × α × Bool :=
  if r.rightLen = 0 then (r, default, false)
  else
    let el := r.elements.getD r.rightStart default
    let e1 := r.elements.set r.rightStart default
    if r.rightStart + 1 = r.elements.length then
      ({ elements := e1, rightStart := 0, rightLen := r.leftLen, leftLen := 0 }, el, true)
    else
      ({ r with elements := e1, rightStart := r.rightStart + 1
                rightLen := r.rightLen - 1 }, el, true)

/-- `PopIndex`: index 0 delegates to `PopFront`; out of `[0, Len())` fails.
For `idx := i - len(r.right) ≥ 0` the element lives in `left`: shift
`left[idx+1:]` down one slot, zero `left[len(left)-1]`, shrink `left`.
Otherwise it lives in `right`: shift `right[:i]` up one slot
(`copy(right[1:], right[:i])` moves through the backing store), zero
`right[0]`, and advance the view (`r.right = r.right[1:]`). -/
def PopIndex [Inhabited α] (r : Ring α) (i : Int) : Ring α × α × Bool :=
  if i = 0 then r.PopFront
  else if i < 0 ∨ (r.Len : Int) ≤ i then (r, default, false)
  else
    let n := i.toNat
    if r.rightLen ≤ n then
      let idx := n - r.rightLen
      let el := r.elements.getD idx default
      ({ r with
          elements := r.elements.take idx
            ++ (r.elements.drop (idx + 1)).take (r.leftLen - (idx + 1))
            ++ [default] ++ r.elements.drop r.leftLen
          leftLen := r.leftLen - 1 }, el, true)
    else
      let el := r.elements.getD (r.rightStart + n) default
      ({ r with
          elements := r.elements.take r.rightStart ++ [default]
            ++ (r.elements.drop r.rightStart).take n
            ++ r.elements.drop (r.rightStart + n + 1)
          rightStart := r.rightStart + 1
          rightLen := r.rightLen - 1 }, el, true)

/-- `PeekFront`: the Go method assigns no field, so the receiver state is
returned unchanged alongside the result. -/
def PeekFront [Inhabited α] (r : Ring α) : Ring α × α × Bool :=
  if r.rightLen = 0 then (r, default, false)
  else (r, r.elements.getD r.rightStart default, true)

/-- `PeekIndex`: same index arithmetic as `PopIndex`, without mutation. -/
def PeekIndex [Inhabited α] (r : Ring α) (i : Int) : Ring α × α × Bool :=
  if i = 0 then r.PeekFront
  else if i < 0 ∨ (r.Len : Int) ≤ i then (r, default, false)
  else
    let n := i.toNat
    if r.rightLen ≤ n then (r, r.elements.getD (n - r.rightLen) default, true)
    else (r, r.elements.getD (r.rightStart + n) default, true)

/-- `Copy`: `idx := copy(out, r.right)` then `copy(out[idx:], r.left)`;
returns the written buffer and the total count.  No field is assigned, so
the receiver state is returned unchanged. -/
def Copy (r : Ring α) (out : List α) : Ring α × List α × Nat :=
  let p1 := goCopy out r.rightView
  let p2 := goCopy (p1.1.drop p1.2) r.leftView
  (r, p1.1.take p1.2 ++ p2.1, p1.2 + p2.2)

/-- `Reset`: both views become `elements[:0]` and `clear(r.elements)` zeroes
every slot. -/
def Reset [Inhabited α] (r : Ring α) : Ring α :=
  { elements := List.replicate r.elements.length default
    rightStart := 0, rightLen := 0, leftLen := 0 }

/-- The two `for` loops of `Scan` over one view: first match with its
0-based position in that view. -/
def scanView {α : Type} (fn : α → Bool) : List α → Option (α × Nat)
  | [] => none
  | x :: xs => if fn x then some (x, 0) else (scanView fn xs).map fun p => (p.1, p.2 + 1)

/-- `Scan`: scan `right` then `left` (offsetting `left` positions by
`len(r.right)`); not-found yields `(zero, -1)`.  No field is assigned. -/
def Scan [Inhabited α] (r : Ring α) (fn : α → Bool) : Ring α × α × Int :=
  match scanView fn r.rightView with
  | some p => (r, p.1, (p.2 : Int))
  | none =>
    match scanView fn r.leftView with
    | some p => (r, p.1, ((p.2 + r.rightLen : Nat) : Int))
    | none => (r, default, -1)

/-- `Compact`: with `left` empty, slide `right` to offset 0 and clear the
rest; otherwise save `left`, lay out `right` then the saved `left` from
offset 0, clear the rest, and make that the new `right` (`elements[:size]`)
with `left` empty. -/
def Compact [Inhabited α] (r : Ring α) : Ring α :=
  if r.leftLen = 0 then
    { elements := r.rightView ++ List.replicate (r.elements.length - r.rightLen) default
      rightStart := 0, rightLen := r.rightLen, leftLen := 0 }
  else
    { elements := r.rightView ++ r.leftView
        ++ List.replicate (r.elements.length - (r.leftLen + r.rightLen)) default
      rightStart := 0, rightLen := r.leftLen + r.rightLen, leftLen := 0 }

/-- The slice `Fill` hands to its callback: `r.elements[len(r.right):]` when
`right` has spare capacity (`cap(r.right) != len(r.right)`), otherwise
`r.elements[len(r.left):cap(r.left)]` when `left` does (`cap(r.left)` is
`len(r.elements)`), otherwise no call is made. -/
def fillRegion (r : Ring α) : List α :=
  if r.elements.length - r.rightStart ≠ r.rightLen then
    r.elements.drop r.rightLen
  else if r.leftLen ≠ r.elements.length then
    r.elements.drop r.leftLen
  else []

/-- `Fill`: the callback writes directly into the handed slice and returns a
count.  The callback is embedded as a function from the handed slice to the
contents it leaves there plus its return value; contents are clipped to the
slice length, positions it does not return keep their old values.  The count
is accepted only when `0 < n ≤ cap−len` of the view being grown; on
rejection 0 is returned, but the callback's writes remain in the store. -/
def Fill [Inhabited α] (r : Ring α) (fn : List α → List α × Int) : Ring α × Int :=
  if r.elements.length - r.rightStart ≠ r.rightLen then
    let s := r.elements.drop r.rightLen
    let res := fn s
    let e1 := r.elements.take r.rightLen ++ (res.1.take s.length ++ s.drop res.1.length)
    if 0 < res.2 ∧ res.2 ≤ (r.elements.length : Int) - r.rightStart - r.rightLen then
      ({ r with elements := e1, rightLen := r.rightLen + res.2.toNat }, res.2)
    else
      ({ r with elements := e1 }, 0)
  else if r.leftLen ≠ r.elements.length then
    let s := r.elements.drop r.leftLen
    let res := fn s
    let e1 := r.elements.take r.leftLen ++ (res.1.take s.length ++ s.drop res.1.length)
    if 0 < res.2 ∧ res.2 ≤ (r.elements.length : Int) - r.leftLen then
      ({ r with elements := e1, leftLen := r.leftLen + res.2.toNat }, res.2)
    else
      ({ r with elements := e1 }, 0)
  else (r, 0)

/-- `PushBatch` (the later, append-based revision, `ring.go` lines 438-454):
first `copy` into `right`'s spare capacity and re-slice `right`; then, if
input remains, `copy(r.elements[len(r.left):], arr[:mmax])` with
`mmax = min(len(arr), len(r.elements)-len(r.right)-len(r.left))` — note the
source never re-slices `r.left` after this second copy, yet still counts
`mmax` into the returned total. -/
def PushBatch (r : Ring α) (arr : List α) : Ring α × Nat :=
  let step1 : Ring α × List α × Nat :=
    if r.rightStart + r.rightLen < r.elements.length then
      let n := min (r.elements.length - r.rightStart - r.rightLen) arr.length
      ({ r with elements := writeAt r.elements (r.rightStart + r.rightLen) (arr.take n)
                rightLen := r.rightLen + n }, arr.drop n, n)
    else (r, arr, 0)
  let r1 := step1.1
  let arr1 := step1.2.1
  let added := step1.2.2
  if arr1.length = 0 then (r1, added)
  else
    let mmax := min arr1.length (r1.elements.length - r1.rightLen - r1.leftLen)
    ({ r1 with elements := writeAt r1.elements r1.leftLen (arr1.take mmax) }, added + mmax)

/-- `Limit`, total transcription of the in-range behaviour: return the ring
itself when `Len() <= limit`; otherwise a view with `right[:limit]` when
`extra := limit - len(r.right) <= 0`, else with `left[:extra]`. -/
def Limit (r : Ring α) (limit : Int) : Ring α :=
  if (r.Len : Int) ≤ limit then r
  else if limit - r.rightLen ≤ 0 then
    { elements := r.elements, rightStart := r.rightStart
      rightLen := limit.toNat, leftLen := 0 }
  else
    { elements := r.elements, rightStart := r.rightStart
      rightLen := r.rightLen, leftLen := (limit - r.rightLen).toNat }

/-- `Limit` with Go's slice-bound panics made explicit: `r.right[:limit]`
panics (`none`) when `limit < 0` (the upper bound `limit ≤ cap(r.right)`
holds in that branch since `limit ≤ len(r.right)`), and `r.left[:extra]`
panics when `extra` exceeds `cap(r.left) = len(r.elements)`. -/
def LimitChecked (r : Ring α) (limit : Int) : Option (Ring α) :=
  if (r.Len : Int) ≤ limit then some r
  else if limit - r.rightLen ≤ 0 then
    if limit < 0 then none
    else some { elements := r.elements, rightStart := r.rightStart
                rightLen := limit.toNat, leftLen := 0 }
  else
    if (r.elements.length : Int) < limit - r.rightLen then none
    else some { elements := r.elements, rightStart := r.rightStart
                rightLen := r.rightLen, leftLen := (limit - r.rightLen).toNat }

/-- `PopFront` with Go's indexing panics made explicit: after the emptiness
guard, `r.right[0]` is in bounds exactly when `0 < len(r.right)`, which the
guard guarantees, so the only check needed is that the view itself is a
valid slice of the store. -/
def PopFrontChecked [Inhabited α] (r : Ring α) : Option (Ring α × α × Bool) :=
  if r.rightLen = 0 then some (r, default, false)
  else if r.rightStart + r.rightLen ≤ r.elements.length then some r.PopFront
  else none

/-- `PopIndex` with Go's indexing panics made explicit: every access after
the range guard is bounded by the view lengths (`idx < len(r.left)` in the
left branch, `i < len(r.right)` in the right branch). -/
def PopIndexChecked [Inhabited α] (r : Ring α) (i : Int) : Option (Ring α × α × Bool) :=
  if i = 0 then r.PopFrontChecked
  else if i < 0 ∨ (r.Len : Int) ≤ i then some (r, default, false)
  else
    let n := i.toNat
    if r.rightLen ≤ n then
      if n - r.rightLen < r.leftLen then some (r.PopIndex i) else none
    else
      if n < r.rightLen then some (r.PopIndex i) else none

/-- `PeekIndex` with Go's indexing panics made explicit. -/
def PeekIndexChecked [Inhabited α] (r : Ring α) (i : Int) : Option (Ring α × α × Bool) :=
  if i = 0 then
    if r.rightLen = 0 then some (r, default, false)
    else if r.rightStart + r.rightLen ≤ r.elements.length then some r.PeekFront
    else none
  else if i < 0 ∨ (r.Len : Int) ≤ i then some (r, default, false)
  else
    let n := i.toNat
    if r.rightLen ≤ n then
      if n - r.rightLen < r.leftLen then some (r.PeekIndex i) else none
    else
      if n < r.rightLen then some (r.PeekIndex i) else none

/-- Modelled from the spec: `All()` is absent from `src/ring.go` (only its
tests call it).  Per §4.1, it "produces a lazy, finite ... sequence of all
occupied elements in logical order (front elements, then wrap elements);
does not consume the buffer". -/
def All (r : Ring α) : Ring α × List α :=
  (r, r.rightView ++ r.leftView)

end Ring

/-- `fakeRing` from the repository's differential fuzz test: a plain
bounded dynamic array. -/
structure FakeRing (α : Type) where
  capacity : Nat
  elements : List α
deriving DecidableEq

namespace FakeRing

variable {α : Type}

/-- `fakeRing.PushBack`. -/
def PushBack (r : FakeRing α) (e : α) : FakeRing α × Bool :=
  if r.elements.length = r.capacity then (r, false)
  else ({ r with elements := r.elements ++ [e] }, true)

/-- `fakeRing.PopFront`: read slot 0, slide everything down, shrink. -/
def PopFront [Inhabited α] (r : FakeRing α) : FakeRing α × α × Bool :=
  if r.elements.length = 0 then (r, default, false)
  else ({ r with elements := r.elements.drop 1 }, r.elements.getD 0 default, true)

/-- `fakeRing.PopIndex`: splice out position `i`. -/
def PopIndex [Inhabited α] (r : FakeRing α) (i : Int) : FakeRing α × α × Bool :=
  if i < 0 ∨ (r.elements.length : Int) ≤ i then (r, default, false)
  else ({ r with elements := r.elements.take i.toNat ++ r.elements.drop (i.toNat + 1) },
        r.elements.getD i.toNat default, true)

/-- `fakeRing.PeekIndex`. -/
def PeekIndex [Inhabited α] (r : FakeRing α) (i : Int) : FakeRing α × α × Bool :=
  if i < 0 ∨ (r.elements.length : Int) ≤ i then (r, default, false)
  else (r, r.elements.getD i.toNat default, true)

/-- `fakeRing.Copy`: `copy(out, r.elements)`. -/
def Copy (r : FakeRing α) (out : List α) : FakeRing α × List α × Nat :=
  let p := goCopy out r.elements
  (r, p.1, p.2)

end FakeRing

/-- One operation of the differential-equivalence interleaving (the claim's
set: PushBack, PopFront, PopIndex(i), PeekIndex(i), Copy). -/
inductive Op (α : Type) where
  | pushBack (v : α)
  | popFront
  | popIndex (i : Int)
  | peekIndex (i : Int)
  | copy (out : List α)
deriving DecidableEq

/-- The observable output of one operation. -/
inductive Obs (α : Type) where
  | pushed (ok : Bool)
  | popped (v : α) (ok : Bool)
  | peeked (v : α) (ok : Bool)
  | copied (buf : List α) (n : Nat)
deriving DecidableEq

namespace Ring

variable {α : Type} [Inhabited α]

/-- Apply one operation to the real ring. -/
def step (r : Ring α) : Op α → Ring α × Obs α
  | .pushBack v => let p := r.PushBack v; (p.1, .pushed p.2)
  | .popFront => let p := r.PopFront; (p.1, .popped p.2.1 p.2.2)
  | .popIndex i => let p := r.PopIndex i; (p.1, .popped p.2.1 p.2.2)
  | .peekIndex i => let p := r.PeekIndex i; (p.1, .peeked p.2.1 p.2.2)
  | .copy out => let p := r.Copy out; (p.1, .copied p.2.1 p.2.2)

/-- Outputs of a whole interleaving on the real ring. -/
def run (r : Ring α) : List (Op α) → List (Obs α)
  | [] => []
  | op :: ops => (r.step op).2 :: Ring.run (r.step op).1 ops

end Ring

namespace FakeRing

variable {α : Type} [Inhabited α]

/-- Apply one operation to the reference model. -/
def step (r : FakeRing α) : Op α → FakeRing α × Obs α
  | .pushBack v => let p := r.PushBack v; (p.1, .pushed p.2)
  | .popFront => let p := r.PopFront; (p.1, .popped p.2.1 p.2.2)
  | .popIndex i => let p := r.PopIndex i; (p.1, .popped p.2.1 p.2.2)
  | .peekIndex i => let p := r.PeekIndex i; (p.1, .peeked p.2.1 p.2.2)
  | .copy out => let p := r.Copy out; (p.1, .copied p.2.1 p.2.2)

/-- Outputs of a whole interleaving on the reference model. -/
def run (r : FakeRing α) : List (Op α) → List (Obs α)
  | [] => []
  | op :: ops => (r.step op).2 :: FakeRing.run (r.step op).1 ops

end FakeRing

/-- States of the embedded `Ring` that arise in executions of the Go code:
the views are valid disjoint slices of the store, `left` is nonempty only
while `right` runs to the physical end and is itself nonempty (the view
swap in `PopFront` maintains this), and `right` never starts at the very
end of the store. -/
def Ring.WF {α : Type} (r : Ring α) : Prop :=
  r.rightStart + r.rightLen ≤ r.elements.length ∧
  r.leftLen + r.rightLen ≤ r.elements.length ∧
  (0 < r.leftLen → r.rightStart + r.rightLen = r.elements.length ∧ 0 < r.rightLen) ∧
  (r.rightStart = r.elements.length → r.rightStart = 0)

instance {α : Type} (r : Ring α) : Decidable r.WF := by
  unfold Ring.WF; infer_instance

/-- The coupling between the real ring and the fuzz test's reference model:
the ring is a reachable state, holds the same logical sequence, and has the
same capacity. -/
def Sim {α : Type} (r : Ring α) (f : FakeRing α) : Prop :=
  r.WF ∧ r.absView = f.elements ∧ r.elements.length = f.capacity

/-- The capacity-2 state reached by `PushBack 10, PushBack 20, PopFront,
PushBack 30`: backing store `[30, 20]`, `right = elements[1:2]`,
`left = elements[0:1]`; the ring is full. -/
def fillBugState : Ring Int :=
  (((((Ring.NewRing Int 2).PushBack 10).1.PushBack 20).1.PopFront).1.PushBack 30).1

/-- The capacity-3 state reached by `PushBack 1, PushBack 2, PushBack 3,
PopFront`: backing store `[0, 2, 3]`, `right = elements[1:3]`, `left`
empty. -/
def pushBatchBugState : Ring Int :=
  (((((Ring.NewRing Int 3).PushBack 1).1.PushBack 2).1.PushBack 3).1.PopFront).1

/-- Capacity-5 ring holding `1, 2, 3, 4, 5`. -/
def ringFive : Ring Int :=
  ((((((Ring.NewRing Int 5).PushBack 1).1.PushBack 2).1.PushBack 3).1.PushBack
    4).1.PushBack 5).1

/-- The capacity-3 state of the C7 scenario after `PushBack 1, PushBack 2,
PushBack 3, PopFront, PushBack 4`: full again, logical order `[2, 3, 4]`. -/
def ringC7 : Ring Int :=
  ((((((Ring.NewRing Int 3).PushBack 1).1.PushBack 2).1.PushBack
    3).1.PopFront).1.PushBack 4).1

/-! ### List helpers -/

theorem take_set_of_le {α : Type} (l : List α) (m k : Nat) (v : α) (hk : k ≤ m) :
    (l.set m v).take k = l.take k := by
  induction l generalizing m k with
  | nil => simp
  | cons a t ih =>
    cases k with
    | zero => simp
    | succ k =>
      cases m with
      | zero => omega
      | succ m =>
        show a :: (t.set m v).take k = a :: t.take k
        rw [ih m k (by omega)]

theorem take_succ_set_self {α : Type} (l : List α) (k : Nat) (v : α) (hk : k < l.length) :
    (l.set k v).take (k + 1) = l.take k ++ [v] := by
  induction l generalizing k with
  | nil => simp at hk
  | cons a t ih =>
    cases k with
    | zero => simp
    | succ k =>
      show a :: (t.set k v).take (k + 1) = a :: (t.take k ++ [v])
      rw [ih k (by simpa using hk)]

namespace Ring

variable {α : Type}

/-! ### View facts under well-formedness -/

theorem rightView_length (r : Ring α) (h1 : r.rightStart + r.rightLen ≤ r.elements.length) :
    r.rightView.length = r.rightLen := by
  simp only [rightView, List.length_take, List.length_drop]
  omega

theorem leftView_length (r : Ring α) (h2 : r.leftLen ≤ r.elements.length) :
    r.leftView.length = r.leftLen := by
  simp only [leftView, List.length_take]
  omega

theorem absView_length (r : Ring α) (h : r.WF) : r.absView.length = r.Len := by
  obtain ⟨h1, h2, h3, h4⟩ := h
  simp only [absView, List.length_append, rightView_length r h1,
    leftView_length r (by omega), Len]
  omega

theorem rightView_cons [Inhabited α] (r : Ring α)
    (h1 : r.rightStart + r.rightLen ≤ r.elements.length) (hrl : 0 < r.rightLen) :
    r.rightView = r.elements.getD r.rightStart default ::
      (r.elements.drop (r.rightStart + 1)).take (r.rightLen - 1) := by
  have hrs : r.rightStart < r.elements.length := by omega
  rw [List.getD_eq_getElem?_getD, List.getElem?_eq_getElem hrs, rightView,
    List.drop_eq_getElem_cons hrs]
  have hsub : r.rightLen = (r.rightLen - 1) + 1 := by omega
  rw [hsub, List.take_succ_cons]
  simp

/-! ### PushBack -/

theorem PushBack_full (r : Ring α) (v : α) (h : r.WF) (hfull : r.Cap ≤ r.Len) :
    r.PushBack v = (r, false) := by
  obtain ⟨h1, h2, h3, h4⟩ := h
  simp only [Cap, Len] at hfull
  rcases Nat.eq_zero_or_pos r.leftLen with hl | hl
  · unfold PushBack
    rw [if_neg (by omega), if_pos (by omega)]
  · obtain ⟨he, hr⟩ := h3 hl
    unfold PushBack
    rw [if_neg (by omega), if_pos (by omega)]

theorem PushBack_ok (r : Ring α) (v : α) (h : r.WF) (hlt : r.Len < r.Cap) :
    (r.PushBack v).2 = true ∧ (r.PushBack v).1.WF ∧
    (r.PushBack v).1.absView = r.absView ++ [v] ∧
    (r.PushBack v).1.elements.length = r.elements.length ∧
    (r.PushBack v).1.Len = r.Len + 1 := by
  obtain ⟨h1, h2, h3, h4⟩ := h
  simp only [Cap, Len] at hlt
  by_cases hc : r.rightStart + r.rightLen < r.elements.length
  · have hll : r.leftLen = 0 := by
      rcases Nat.eq_zero_or_pos r.leftLen with hz | hp
      · exact hz
      · exact absurd (h3 hp).1 (by omega)
    unfold PushBack
    rw [if_pos hc]
    dsimp only [WF, absView, rightView, leftView, Len, Cap]
    refine ⟨rfl, ⟨?_, ?_, ?_, ?_⟩, ?_, ?_, ?_⟩
    · simp only [List.length_set]; omega
    · simp only [List.length_set]; omega
    · intro hpos; omega
    · simp only [List.length_set]; omega
    · rw [hll]
      simp only [List.take_zero, List.append_nil]
      rw [List.drop_set, if_neg (by omega), Nat.add_sub_cancel_left]
      exact take_succ_set_self _ _ _ (by simp only [List.length_drop]; omega)
    · simp only [List.length_set]
    · omega
  · have heq : r.rightStart + r.rightLen = r.elements.length := by omega
    have hrl : 0 < r.rightLen := by
      by_contra hz
      have : r.rightStart = r.elements.length := by omega
      have := h4 this
      omega
    have hlr : r.leftLen < r.rightStart := by omega
    unfold PushBack
    rw [if_neg hc, if_neg (by omega)]
    dsimp only [WF, absView, rightView, leftView, Len, Cap]
    refine ⟨rfl, ⟨?_, ?_, ?_, ?_⟩, ?_, ?_, ?_⟩
    · simp only [List.length_set]; omega
    · simp only [List.length_set]; omega
    · intro hpos
      simp only [List.length_set]
      exact ⟨heq, hrl⟩
    · simp only [List.length_set]; omega
    · rw [List.drop_set, if_pos hlr, take_succ_set_self _ _ _ (by omega),
        List.append_assoc]
    · simp only [List.length_set]
    · omega

/-! ### PopFront -/

theorem PopFront_empty [Inhabited α] (r : Ring α) (h : r.WF) (hz : r.Len = 0) :
    r.PopFront = (r, default, false) := by
  obtain ⟨h1, h2, h3, h4⟩ := h
  simp only [Len] at hz
  unfold PopFront
  rw [if_pos (by omega)]

theorem PopFront_ok [Inhabited α] (r : Ring α) (h : r.WF) (hpos : 0 < r.Len) :
    (r.PopFront).2.2 = true ∧ (r.PopFront).1.WF ∧
    r.absView = (r.PopFront).2.1 :: (r.PopFront).1.absView ∧
    (r.PopFront).1.elements.length = r.elements.length ∧
    (r.PopFront).1.Len = r.Len - 1 ∧
    (r.PopFront).1.elements[r.rightStart]? = some default := by
  obtain ⟨h1, h2, h3, h4⟩ := h
  simp only [Len] at hpos
  have hrl : 0 < r.rightLen := by
    rcases Nat.eq_zero_or_pos r.rightLen with hz | hp
    · rcases Nat.eq_zero_or_pos r.leftLen with hz2 | hp2
      · omega
      · exact absurd (h3 hp2).2 (by omega)
    · exact hp
  have hrs : r.rightStart < r.elements.length := by omega
  have hll_le : r.leftLen ≤ r.rightStart := by
    rcases Nat.eq_zero_or_pos r.leftLen with hz | hp
    · omega
    · have := (h3 hp).1; omega
  unfold PopFront
  rw [if_neg (by omega)]
  by_cases hswap : r.rightStart + 1 = r.elements.length
  · have hrl1 : r.rightLen = 1 := by omega
    rw [if_pos hswap]
    dsimp only
    refine ⟨rfl, ⟨?_, ?_, ?_, ?_⟩, ?_, ?_, ?_, ?_⟩
    · simp only [List.length_set]; omega
    · simp only [List.length_set]; omega
    · dsimp only; intro hx; omega
    · intro hx; rfl
    · rw [absView, rightView_cons r h1 hrl]
      dsimp only [absView, rightView, leftView]
      simp only [hrl1, Nat.sub_self, List.take_zero, List.nil_append, List.drop_zero,
        List.append_nil]
      rw [take_set_of_le _ _ _ _ hll_le]
      rfl
    · simp only [List.length_set]
    · dsimp only [Len]; omega
    · exact List.getElem?_set_self hrs
  · rw [if_neg hswap]
    dsimp only
    have hswlt : r.rightStart + 1 < r.elements.length := by omega
    refine ⟨rfl, ⟨?_, ?_, ?_, ?_⟩, ?_, ?_, ?_, ?_⟩
    · simp only [List.length_set]; omega
    · simp only [List.length_set]; omega
    · intro hp
      obtain ⟨he, hr⟩ := h3 hp
      simp only [List.length_set]
      constructor
      · omega
      · by_contra hz
        have : r.rightLen = 1 := by omega
        omega
    · simp only [List.length_set]; omega
    · rw [absView, rightView_cons r h1 hrl]
      dsimp only [absView, rightView, leftView]
      simp only [List.cons_append]
      congr 1
      rw [List.drop_set, if_pos (by omega), take_set_of_le _ _ _ _ hll_le]
    · simp only [List.length_set]
    · dsimp only [Len]; omega
    · exact List.getElem?_set_self hrs

end Ring

theorem drop_append_all {α : Type} (P l : List α) (k : Nat) (h : P.length ≤ k) :
    (P ++ l).drop k = l.drop (k - P.length) := by
  rw [List.drop_append_eq_append_drop, List.drop_eq_nil_of_le h, List.nil_append]

theorem take_append_all {α : Type} (P l : List α) (k : Nat) (h : P.length ≤ k) :
    (P ++ l).take k = P ++ l.take (k - P.length) := by
  rw [List.take_append_eq_append_take, List.take_of_length_le h]

namespace Ring

variable {α : Type}

/-! ### PopIndex -/

theorem PopIndex_out [Inhabited α] (r : Ring α) (i : Int) (h : r.WF)
    (hout : i < 0 ∨ (r.Len : Int) ≤ i) : r.PopIndex i = (r, default, false) := by
  unfold PopIndex
  by_cases h0 : i = 0
  · rw [if_pos h0]
    subst h0
    apply PopFront_empty r h
    rcases hout with hlt | hle
    · omega
    · omega
  · rw [if_neg h0, if_pos hout]

theorem PopIndex_in [Inhabited α] (r : Ring α) (i : Int) (h : r.WF)
    (h0 : 0 ≤ i) (hilen : i < (r.Len : Int)) :
    (r.PopIndex i).2 = (r.absView.getD i.toNat default, true) ∧
    (r.PopIndex i).1.WF ∧
    (r.PopIndex i).1.absView = r.absView.take i.toNat ++ r.absView.drop (i.toNat + 1) ∧
    (r.PopIndex i).1.elements.length = r.elements.length ∧
    (r.PopIndex i).1.Len = r.Len - 1 := by
  obtain ⟨h1, h2, h3, h4⟩ := h
  have hll_le : r.leftLen ≤ r.rightStart := by
    rcases Nat.eq_zero_or_pos r.leftLen with hz | hp
    · omega
    · have := (h3 hp).1; omega
  have hnlen : i.toNat < r.Len := by omega
  simp only [Len] at hnlen
  by_cases hi0 : i = 0
  · subst hi0
    have hpos : 0 < r.Len := by simp only [Len]; omega
    rcases hPF : r.PopFront with ⟨r1, el, ok⟩
    obtain ⟨hok, hwf, habs, hlenp, hlen2, _⟩ := PopFront_ok r ⟨h1, h2, h3, h4⟩ hpos
    rw [hPF] at hok hwf habs hlenp hlen2
    unfold PopIndex
    rw [if_pos rfl, hPF]
    simp only [Int.toNat_zero] at *
    refine ⟨?_, hwf, ?_, hlenp, hlen2⟩
    · show (el, ok) = (r.absView.getD 0 default, true)
      rw [habs, List.getD_cons_zero, hok]
    · rw [habs]
      simp
  · have hn1 : 1 ≤ i.toNat := by omega
    unfold PopIndex
    rw [if_neg hi0, if_neg (by simp only [not_or, not_lt, not_le]; exact ⟨h0, hilen⟩)]
    by_cases hbr : r.rightLen ≤ i.toNat
    · -- element falls in the left view
      rw [if_pos hbr]
      dsimp only
      set E := r.elements with hE
      set idx := i.toNat - r.rightLen with hidx
      have hidxll : idx < r.leftLen := by omega
      have hll_pos : 0 < r.leftLen := by omega
      have hllN : r.leftLen ≤ E.length := by omega
      have hlenT : (E.take idx).length = idx := by
        simp only [List.length_take]; omega
      have hlenA : ((E.drop (idx + 1)).take (r.leftLen - (idx + 1))).length
          = r.leftLen - (idx + 1) := by
        simp only [List.length_take, List.length_drop]; omega
      refine ⟨?_, ⟨?_, ?_, ?_, ?_⟩, ?_, ?_, ?_⟩
      · show (E.getD idx default, true) = (r.absView.getD i.toNat default, true)
        have : r.absView.getD i.toNat default = E.getD idx default := by
          rw [List.getD_eq_getElem?_getD, List.getD_eq_getElem?_getD, absView,
            List.getElem?_append_right (by rw [rightView_length r h1]; omega),
            rightView_length r h1, leftView, List.getElem?_take, if_pos hidxll]
        rw [this]
      · dsimp only
        simp only [List.length_append, List.length_take, List.length_drop,
          List.length_cons, List.length_nil]
        omega
      · dsimp only
        simp only [List.length_append, List.length_take, List.length_drop,
          List.length_cons, List.length_nil]
        omega
      · dsimp only
        intro hpos
        simp only [List.length_append, List.length_take, List.length_drop,
          List.length_cons, List.length_nil]
        have := h3 hll_pos
        omega
      · dsimp only
        intro hrs
        simp only [List.length_append, List.length_take, List.length_drop,
          List.length_cons, List.length_nil] at hrs
        apply h4
        omega
      · -- the logical sequence after removal
        have hlenR : ((E.drop r.rightStart).take r.rightLen).length = r.rightLen := by
          simp only [List.length_take, List.length_drop]; omega
        have hdrop : (E.take idx ++ ((E.drop (idx + 1)).take (r.leftLen - (idx + 1))
            ++ ([default] ++ E.drop r.leftLen))).drop r.rightStart
            = E.drop r.rightStart := by
          rw [drop_append_all _ _ _ (by rw [hlenT]; omega), hlenT,
            drop_append_all _ _ _ (by rw [hlenA]; omega), hlenA,
            drop_append_all _ _ _ (by simp only [List.length_cons, List.length_nil]; omega)]
          simp only [List.length_cons, List.length_nil]
          rw [List.drop_drop]
          congr 1
          omega
        have htake : (E.take idx ++ ((E.drop (idx + 1)).take (r.leftLen - (idx + 1))
            ++ ([default] ++ E.drop r.leftLen))).take (r.leftLen - 1)
            = E.take idx ++ (E.drop (idx + 1)).take (r.leftLen - (idx + 1)) := by
          rw [take_append_all _ _ _ (by rw [hlenT]; omega), hlenT,
            take_append_all _ _ _ (by rw [hlenA]; omega), hlenA,
            show r.leftLen - 1 - idx - (r.leftLen - (idx + 1)) = 0 by omega]
          simp
        have hT1 : ((E.drop r.rightStart).take r.rightLen ++ E.take r.leftLen).take i.toNat
            = (E.drop r.rightStart).take r.rightLen ++ E.take idx := by
          rw [take_append_all _ _ _ (by rw [hlenR]; omega), hlenR, List.take_take,
            show min (i.toNat - r.rightLen) r.leftLen = idx by omega]
        have hT2 : ((E.drop r.rightStart).take r.rightLen ++ E.take r.leftLen).drop (i.toNat + 1)
            = (E.drop (idx + 1)).take (r.leftLen - (idx + 1)) := by
          rw [drop_append_all _ _ _ (by rw [hlenR]; omega), hlenR, List.drop_take,
            show i.toNat + 1 - r.rightLen = idx + 1 by omega]
        dsimp only [absView, rightView, leftView]
        rw [← hE]
        simp only [List.append_assoc]
        rw [hdrop, htake, hT1, hT2]
        simp only [List.append_assoc]
      · dsimp only
        simp only [List.length_append, List.length_take, List.length_drop,
          List.length_cons, List.length_nil]
        omega
      · dsimp only [Len]
        omega
    · -- element falls in the right view
      rw [if_neg hbr]
      dsimp only
      set E := r.elements with hE
      set n := i.toNat with hn
      have hnrl : n < r.rightLen := by omega
      have hrl2 : 2 ≤ r.rightLen := by omega
      have hlenT : (E.take r.rightStart).length = r.rightStart := by
        simp only [List.length_take]; omega
      have hlenA : ((E.drop r.rightStart).take n).length = n := by
        simp only [List.length_take, List.length_drop]; omega
      refine ⟨?_, ⟨?_, ?_, ?_, ?_⟩, ?_, ?_, ?_⟩
      · show (E.getD (r.rightStart + n) default, true) = (r.absView.getD n default, true)
        have : r.absView.getD n default = E.getD (r.rightStart + n) default := by
          rw [List.getD_eq_getElem?_getD, List.getD_eq_getElem?_getD, absView,
            List.getElem?_append_left (by rw [rightView_length r h1]; omega),
            rightView, List.getElem?_take, if_pos hnrl, List.getElem?_drop]
        rw [this]
      · dsimp only
        simp only [List.length_append, List.length_take, List.length_drop,
          List.length_cons, List.length_nil]
        omega
      · dsimp only
        simp only [List.length_append, List.length_take, List.length_drop,
          List.length_cons, List.length_nil]
        omega
      · dsimp only
        intro hpos
        simp only [List.length_append, List.length_take, List.length_drop,
          List.length_cons, List.length_nil]
        have := h3 hpos
        omega
      · dsimp only
        intro hrs
        simp only [List.length_append, List.length_take, List.length_drop,
          List.length_cons, List.length_nil] at hrs
        omega
      · have hlenR : ((E.drop r.rightStart).take r.rightLen).length = r.rightLen := by
          simp only [List.length_take, List.length_drop]; omega
        have hdrop : (E.take r.rightStart ++ ([default] ++ ((E.drop r.rightStart).take n
            ++ E.drop (r.rightStart + n + 1)))).drop (r.rightStart + 1)
            = (E.drop r.rightStart).take n ++ E.drop (r.rightStart + n + 1) := by
          rw [drop_append_all _ _ _ (by rw [hlenT]; omega), hlenT,
            drop_append_all _ _ _ (by simp only [List.length_cons, List.length_nil]; omega)]
          simp only [List.length_cons, List.length_nil]
          rw [show r.rightStart + 1 - r.rightStart - 1 = 0 by omega, List.drop_zero]
        have htake : ((E.drop r.rightStart).take n
            ++ E.drop (r.rightStart + n + 1)).take (r.rightLen - 1)
            = (E.drop r.rightStart).take n
              ++ (E.drop (r.rightStart + n + 1)).take (r.rightLen - 1 - n) := by
          rw [take_append_all _ _ _ (by rw [hlenA]; omega), hlenA]
        have hTL : (E.take r.rightStart ++ ([default] ++ ((E.drop r.rightStart).take n
            ++ E.drop (r.rightStart + n + 1)))).take r.leftLen = E.take r.leftLen := by
          rw [List.take_append_of_le_length (by rw [hlenT]; omega), List.take_take,
            show min r.leftLen r.rightStart = r.leftLen by omega]
        have hT1 : ((E.drop r.rightStart).take r.rightLen ++ E.take r.leftLen).take n
            = (E.drop r.rightStart).take n := by
          rw [List.take_append_of_le_length (by rw [hlenR]; omega), List.take_take,
            show min n r.rightLen = n by omega]
        have hT2 : ((E.drop r.rightStart).take r.rightLen ++ E.take r.leftLen).drop (n + 1)
            = (E.drop (r.rightStart + n + 1)).take (r.rightLen - 1 - n) ++ E.take r.leftLen := by
          rw [List.drop_append_of_le_length (by rw [hlenR]; omega), List.drop_take, List.drop_drop,
            show r.rightStart + (n + 1) = r.rightStart + n + 1 by omega,
            show r.rightLen - (n + 1) = r.rightLen - 1 - n by omega]
        dsimp only [absView, rightView, leftView]
        rw [← hE]
        simp only [List.append_assoc]
        rw [hdrop, htake, hTL, hT1, hT2]
        simp only [List.append_assoc]
      · dsimp only
        simp only [List.length_append, List.length_take, List.length_drop,
          List.length_cons, List.length_nil]
        omega
      · dsimp only [Len]
        omega

/-- After an in-range `PopIndex` with `i ≠ 0`, the physical slot vacated by
the shift (`right`'s old start slot when the element was in `right`,
`left`'s old last slot when it was in `left`) holds the zero value. -/
theorem PopIndex_zeroes [Inhabited α] (r : Ring α) (i : Int) (h : r.WF)
    (hi : 0 < i) (hilen : i < (r.Len : Int)) :
    (i.toNat < r.rightLen → (r.PopIndex i).1.elements[r.rightStart]? = some default) ∧
    (r.rightLen ≤ i.toNat → (r.PopIndex i).1.elements[r.leftLen - 1]? = some default) := by
  obtain ⟨h1, h2, h3, h4⟩ := h
  have hnlen : i.toNat < r.leftLen + r.rightLen := by
    have hx : i.toNat < r.Len := by omega
    simp only [Len] at hx
    exact hx
  unfold PopIndex
  rw [if_neg (show ¬(i = 0) by omega),
    if_neg (by simp only [not_or, not_lt, not_le]; exact ⟨by omega, hilen⟩)]
  dsimp only
  constructor
  · intro hn
    rw [if_neg (by omega)]
    dsimp only
    rw [List.getElem?_append_left (by
        simp only [List.length_append, List.length_take, List.length_drop,
          List.length_cons, List.length_nil]
        omega),
      List.getElem?_append_left (by
        simp only [List.length_append, List.length_take, List.length_cons, List.length_nil]
        omega),
      List.getElem?_append_right (by simp only [List.length_take]; omega)]
    simp only [List.length_take]
    rw [show r.rightStart - min r.rightStart r.elements.length = 0 by omega]
    rfl
  · intro hn
    rw [if_pos hn]
    dsimp only
    have hidx : i.toNat - r.rightLen < r.leftLen := by omega
    rw [List.getElem?_append_left (by
        simp only [List.length_append, List.length_take, List.length_drop,
          List.length_cons, List.length_nil]
        omega),
      List.getElem?_append_right (by
        simp only [List.length_append, List.length_take, List.length_drop]
        omega)]
    simp only [List.length_append, List.length_take, List.length_drop]
    rw [show r.leftLen - 1 - (min (i.toNat - r.rightLen) r.elements.length
      + min (r.leftLen - (i.toNat - r.rightLen + 1)) (r.elements.length
        - (i.toNat - r.rightLen + 1))) = 0 by omega]
    rfl

/-- `Compact` lays the logical sequence out contiguously from offset 0 with
the `left` view empty, preserving contents, length, and capacity. -/
theorem Compact_spec [Inhabited α] (r : Ring α) (h : r.WF) :
    (r.Compact).absView = r.absView ∧
    (r.Compact).elements.take r.Len = r.absView ∧
    (r.Compact).rightStart = 0 ∧ (r.Compact).leftLen = 0 ∧
    (r.Compact).rightLen = r.Len ∧
    (r.Compact).Len = r.Len ∧
    (r.Compact).elements.length = r.elements.length ∧
    (r.Compact).WF := by
  obtain ⟨h1, h2, h3, h4⟩ := h
  have hRlen : ((r.elements.drop r.rightStart).take r.rightLen).length = r.rightLen := by
    simp only [List.length_take, List.length_drop]; omega
  have hLlen : (r.elements.take r.leftLen).length = r.leftLen := by
    simp only [List.length_take]; omega
  unfold Compact
  by_cases hll : r.leftLen = 0
  · rw [if_pos hll]
    have hto : ∀ p : List α,
        ((r.elements.drop r.rightStart).take r.rightLen ++ p).take r.rightLen
        = (r.elements.drop r.rightStart).take r.rightLen := by
      intro p
      rw [List.take_append_of_le_length (le_of_eq hRlen.symm), List.take_take, Nat.min_self]
    refine ⟨?_, ?_, rfl, rfl, ?_, ?_, ?_, ⟨?_, ?_, ?_, ?_⟩⟩
    · dsimp only [absView, rightView, leftView]
      simp only [List.drop_zero, List.take_zero, List.append_nil, hll]
      exact hto _
    · dsimp only [absView, rightView, leftView, Len]
      simp only [hll, Nat.zero_add, List.take_zero, List.append_nil]
      exact hto _
    · dsimp only [Len]; omega
    · dsimp only [Len]; omega
    · dsimp only [rightView, leftView]
      simp only [List.length_append, List.length_take, List.length_drop,
        List.length_replicate]
      omega
    · dsimp only [rightView, leftView]
      simp only [List.length_append, List.length_take, List.length_drop,
        List.length_replicate]
      omega
    · dsimp only [rightView, leftView]
      simp only [List.length_append, List.length_take, List.length_drop,
        List.length_replicate]
      omega
    · dsimp only
      intro hx
      exact absurd hx (by omega)
    · intro hx
      rfl
  · rw [if_neg hll]
    have hto : ∀ p : List α,
        (((r.elements.drop r.rightStart).take r.rightLen ++ r.elements.take r.leftLen)
          ++ p).take (r.leftLen + r.rightLen)
        = (r.elements.drop r.rightStart).take r.rightLen ++ r.elements.take r.leftLen := by
      intro p
      rw [List.take_append_of_le_length
          (by simp only [List.length_append, List.length_take, List.length_drop]; omega),
        List.take_of_length_le
          (by simp only [List.length_append, List.length_take, List.length_drop]; omega)]
    refine ⟨?_, ?_, rfl, rfl, ?_, ?_, ?_, ⟨?_, ?_, ?_, ?_⟩⟩
    · dsimp only [absView, rightView, leftView]
      simp only [List.drop_zero, List.take_zero, List.append_nil]
      exact hto _
    · dsimp only [absView, rightView, leftView, Len]
      exact hto _
    · dsimp only [Len]
    · dsimp only [Len]; omega
    · dsimp only [rightView, leftView]
      simp only [List.length_append, List.length_take, List.length_drop,
        List.length_replicate]
      omega
    · dsimp only [rightView, leftView]
      simp only [List.length_append, List.length_take, List.length_drop,
        List.length_replicate]
      omega
    · dsimp only [rightView, leftView]
      simp only [List.length_append, List.length_take, List.length_drop,
        List.length_replicate]
      omega
    · dsimp only
      intro hx
      exact absurd hx (by omega)
    · intro hx
      rfl

/-! ### PeekFront / PeekIndex / Copy -/

theorem absView_cons [Inhabited α] (r : Ring α) (h : r.WF) (hrl : 0 < r.rightLen) :
    r.absView = r.elements.getD r.rightStart default ::
      ((r.elements.drop (r.rightStart + 1)).take (r.rightLen - 1) ++ r.leftView) := by
  obtain ⟨h1, h2, h3, h4⟩ := h
  rw [absView, rightView_cons r h1 hrl, List.cons_append]

theorem PeekIndex_out [Inhabited α] (r : Ring α) (i : Int) (h : r.WF)
    (hout : i < 0 ∨ (r.Len : Int) ≤ i) : r.PeekIndex i = (r, default, false) := by
  obtain ⟨h1, h2, h3, h4⟩ := h
  unfold PeekIndex
  by_cases h0 : i = 0
  · rw [if_pos h0]
    subst h0
    have hrl : r.rightLen = 0 := by
      rcases Nat.eq_zero_or_pos r.rightLen with hz | hp
      · exact hz
      · exfalso
        simp only [Len] at hout
        rcases hout with hlt | hle
        · omega
        · omega
    unfold PeekFront
    rw [if_pos hrl]
  · rw [if_neg h0, if_pos hout]

theorem PeekIndex_in [Inhabited α] (r : Ring α) (i : Int) (h : r.WF)
    (h0 : 0 ≤ i) (hilen : i < (r.Len : Int)) :
    r.PeekIndex i = (r, r.absView.getD i.toNat default, true) := by
  have hWF := h
  obtain ⟨h1, h2, h3, h4⟩ := h
  have hnlen : i.toNat < r.Len := by omega
  simp only [Len] at hnlen
  have hrl : 0 < r.rightLen := by
    rcases Nat.eq_zero_or_pos r.rightLen with hz | hp
    · rcases Nat.eq_zero_or_pos r.leftLen with hz2 | hp2
      · omega
      · exact absurd (h3 hp2).2 (by omega)
    · exact hp
  by_cases hi0 : i = 0
  · subst hi0
    unfold PeekIndex
    rw [if_pos rfl]
    unfold PeekFront
    rw [if_neg (by omega), absView_cons r hWF hrl]
    simp only [Int.toNat_zero, List.getD_cons_zero]
  · unfold PeekIndex
    rw [if_neg hi0, if_neg (by simp only [not_or, not_lt, not_le]; exact ⟨h0, hilen⟩)]
    dsimp only
    by_cases hbr : r.rightLen ≤ i.toNat
    · rw [if_pos hbr]
      have : r.absView.getD i.toNat default
          = r.elements.getD (i.toNat - r.rightLen) default := by
        rw [List.getD_eq_getElem?_getD, List.getD_eq_getElem?_getD, absView,
          List.getElem?_append_right (by rw [rightView_length r h1]; omega),
          rightView_length r h1, leftView, List.getElem?_take, if_pos (by omega)]
      rw [this]
    · rw [if_neg hbr]
      have : r.absView.getD i.toNat default
          = r.elements.getD (r.rightStart + i.toNat) default := by
        rw [List.getD_eq_getElem?_getD, List.getD_eq_getElem?_getD, absView,
          List.getElem?_append_left (by rw [rightView_length r h1]; omega),
          rightView, List.getElem?_take, if_pos (by omega), List.getElem?_drop]
      rw [this]

theorem Copy_spec (r : Ring α) [Inhabited α] (out : List α) (h : r.WF) :
    r.Copy out = (r, goCopy out r.absView) := by
  obtain ⟨h1, h2, h3, h4⟩ := h
  have hR : r.rightView.length = r.rightLen := rightView_length r h1
  have hL : r.leftView.length = r.leftLen := leftView_length r (by omega)
  have habsl : r.absView.length = r.rightLen + r.leftLen := by
    rw [absView, List.length_append, hR, hL]
  unfold Copy goCopy
  dsimp only
  simp only [Prod.mk.injEq, true_and]
  rw [hR, habsl]
  have hd1 : (r.rightView.take (min out.length r.rightLen)
      ++ out.drop (min out.length r.rightLen)).drop (min out.length r.rightLen)
      = out.drop (min out.length r.rightLen) := by
    rw [drop_append_all _ _ _ (by simp only [List.length_take]; rw [hR]; omega)]
    simp only [List.length_take]
    rw [hR, show min out.length r.rightLen - min (min out.length r.rightLen) r.rightLen = 0
      by omega, List.drop_zero]
  have ht1 : (r.rightView.take (min out.length r.rightLen)
      ++ out.drop (min out.length r.rightLen)).take (min out.length r.rightLen)
      = r.rightView.take (min out.length r.rightLen) := by
    rw [List.take_append_of_le_length (by simp only [List.length_take]; rw [hR]; omega),
      List.take_take, Nat.min_self]
  rw [hd1, ht1, List.length_drop, hL]
  rcases Nat.le_total out.length r.rightLen with hm | hm
  · rw [show min out.length r.rightLen = out.length by omega,
      show min (out.length - out.length) r.leftLen = 0 by omega,
      show min out.length (r.rightLen + r.leftLen) = out.length by omega]
    simp only [List.take_zero, List.nil_append, List.drop_zero]
    refine ⟨?_, by omega⟩
    rw [absView, List.take_append_of_le_length (by rw [hR]; omega)]
  · rw [show min out.length r.rightLen = r.rightLen by omega]
    rcases Nat.le_total (out.length - r.rightLen) r.leftLen with hm2 | hm2
    · rw [show min (out.length - r.rightLen) r.leftLen = out.length - r.rightLen by omega,
        show min out.length (r.rightLen + r.leftLen) = out.length by omega]
      refine ⟨?_, by omega⟩
      rw [List.take_of_length_le (le_of_eq hR), List.drop_drop,
        show r.rightLen + (out.length - r.rightLen) = out.length by omega,
        absView, take_append_all _ _ _ (by rw [hR]; omega), hR, List.append_assoc]
    · rw [show min (out.length - r.rightLen) r.leftLen = r.leftLen by omega,
        show min out.length (r.rightLen + r.leftLen) = r.rightLen + r.leftLen by omega]
      refine ⟨?_, by omega⟩
      rw [List.take_of_length_le (le_of_eq hR), List.take_of_length_le (le_of_eq hL),
        List.drop_drop, absView,
        List.take_of_length_le (by rw [List.length_append, hR, hL]),
        List.append_assoc]

end Ring

/-! ### The differential simulation -/

theorem step_sim {α : Type} [Inhabited α] (r : Ring α) (f : FakeRing α) (op : Op α)
    (h : Sim r f) :
    (r.step op).2 = (f.step op).2 ∧ Sim (r.step op).1 (f.step op).1 := by
  obtain ⟨hwf, habs, hcap⟩ := h
  have hlen : f.elements.length = r.Len := by rw [← habs, Ring.absView_length r hwf]
  have hLc : r.Len ≤ r.Cap := by
    obtain ⟨h1, h2, h3, h4⟩ := hwf
    simp only [Ring.Len, Ring.Cap]
    omega
  cases op with
  | pushBack v =>
    simp only [Ring.step, FakeRing.step, FakeRing.PushBack]
    by_cases hfull : r.Len < r.Cap
    · obtain ⟨hok, hwf2, habs2, hcap2, _⟩ := Ring.PushBack_ok r v hwf hfull
      rw [if_neg (by simp only [Ring.Cap] at hfull; omega)]
      refine ⟨by rw [hok], hwf2, by rw [habs2, habs], by rw [hcap2, hcap]⟩
    · have hfe : r.Len = r.Cap := by omega
      rw [Ring.PushBack_full r v hwf (by omega), if_pos (by simp only [Ring.Cap] at hfe; omega)]
      exact ⟨rfl, hwf, habs, hcap⟩
  | popFront =>
    simp only [Ring.step, FakeRing.step, FakeRing.PopFront]
    rcases Nat.eq_zero_or_pos r.Len with hz | hp
    · rw [Ring.PopFront_empty r hwf hz, if_pos (by omega)]
      exact ⟨rfl, hwf, habs, hcap⟩
    · rcases hPF : r.PopFront with ⟨r1, el, ok⟩
      obtain ⟨hok, hwf2, habs2, hcap2, _, _⟩ := Ring.PopFront_ok r hwf hp
      rw [hPF] at hok hwf2 habs2 hcap2
      have hok2 : ok = true := hok
      have hwf3 : r1.WF := hwf2
      have habs3 : r.absView = el :: r1.absView := habs2
      have hcap3 : r1.elements.length = r.elements.length := hcap2
      rw [if_neg (by omega)]
      have hfe : f.elements = el :: r1.absView := by rw [← habs, habs3]
      refine ⟨?_, hwf3, ?_, by rw [hcap3, hcap]⟩
      · rw [hok2, hfe, List.getD_cons_zero]
      · rw [hfe]
        simp
  | popIndex i =>
    simp only [Ring.step, FakeRing.step, FakeRing.PopIndex]
    by_cases hout : i < 0 ∨ (r.Len : Int) ≤ i
    · rw [Ring.PopIndex_out r i hwf hout, if_pos (by rw [hlen]; exact hout)]
      exact ⟨rfl, hwf, habs, hcap⟩
    · push_neg at hout
      obtain ⟨h0, hilen⟩ := hout
      obtain ⟨hval, hwf2, habs2, hcap2, _⟩ := Ring.PopIndex_in r i hwf h0 hilen
      rw [if_neg (by rw [hlen]; simp only [not_or, not_lt, not_le]; exact ⟨h0, hilen⟩)]
      refine ⟨?_, hwf2, ?_, by rw [hcap2, hcap]⟩
      · rw [show ((r.PopIndex i).1, (r.PopIndex i).2).2 = (r.PopIndex i).2 from rfl] at hval
        rw [hval, habs]
      · rw [habs2, habs]
  | peekIndex i =>
    simp only [Ring.step, FakeRing.step, FakeRing.PeekIndex]
    by_cases hout : i < 0 ∨ (r.Len : Int) ≤ i
    · rw [Ring.PeekIndex_out r i hwf hout, if_pos (by rw [hlen]; exact hout)]
      exact ⟨rfl, hwf, habs, hcap⟩
    · push_neg at hout
      obtain ⟨h0, hilen⟩ := hout
      rw [Ring.PeekIndex_in r i hwf h0 hilen,
        if_neg (by rw [hlen]; simp only [not_or, not_lt, not_le]; exact ⟨h0, hilen⟩)]
      exact ⟨by rw [habs], hwf, habs, hcap⟩
  | copy out =>
    simp only [Ring.step, FakeRing.step, FakeRing.Copy, Ring.Copy_spec r out hwf]
    exact ⟨by rw [habs], hwf, habs, hcap⟩

theorem run_sim {α : Type} [Inhabited α] (r : Ring α) (f : FakeRing α) (ops : List (Op α))
    (h : Sim r f) : Ring.run r ops = FakeRing.run f ops := by
  induction ops generalizing r f with
  | nil => rfl
  | cons op ops ih =>
    obtain ⟨hout, hsim⟩ := step_sim r f op h
    simp only [Ring.run, FakeRing.run, hout, ih _ _ hsim]

theorem Sim_new {α : Type} [Inhabited α] (n : Nat) :
    Sim (Ring.NewRing α n) (FakeRing.mk n []) := by
  refine ⟨⟨?_, ?_, ?_, ?_⟩, ?_, ?_⟩
  · simp [Ring.NewRing]
  · simp [Ring.NewRing]
  · intro hx; simp [Ring.NewRing] at hx
  · intro hx; rfl
  · simp [Ring.absView, Ring.rightView, Ring.leftView, Ring.NewRing]
  · simp [Ring.NewRing]

/-! ### The claims -/

/-- C1: starting from an empty `Ring` of any capacity `n` and the test
suite's `fakeRing` reference model (a plain bounded dynamic array) of the
same capacity, every finite interleaving of `PushBack`, `PopFront`,
`PopIndex(i)`, `PeekIndex(i)` and `Copy` — including adversarial negative
or oversized index values — produces identical observable outputs (ok
flags, popped and peeked values, and `Copy` snapshots with their counts)
at every step. -/
theorem C1_differential_equivalence (α : Type) [Inhabited α] (n : Nat)
    (ops : List (Op α)) :
    Ring.run (Ring.NewRing α n) ops = FakeRing.run (FakeRing.mk n []) ops :=
  run_sim _ _ _ (Sim_new n)

/-- C2: the claimed invariant `0 ≤ Len() ≤ Cap()` is NOT preserved by the
code.  From an empty capacity-2 ring, `PushBack 10, PushBack 20, PopFront,
PushBack 30` reaches a well-formed full state, and a single `Fill` whose
callback reports one element filled leaves `Len() = 3 > Cap() = 2`: the
bound `n <= cap(r.left)-len(r.left)` in `Fill` ignores the elements held
by `right`.  This theorem evaluates the code at that failing input. -/
theorem C2_fill_breaks_len_le_cap :
    fillBugState.WF ∧ fillBugState.Len = 2 ∧ fillBugState.Cap = 2 ∧
    (fillBugState.Fill fun s => (s, 1)).2 = 1 ∧
    (fillBugState.Fill fun s => (s, 1)).1.Len = 3 ∧
    (fillBugState.Fill fun s => (s, 1)).1.Cap = 2 := by decide

/-- C3: `Fill` does NOT hand its callback a slice of only free slots.  In
the full capacity-2 state `fillBugState` there are no free slots at all
(`Len() = Cap()`), yet `Fill` passes the region `elements[1:2] = [20]`,
whose only slot holds the logically-first occupied element of the sequence
`[20, 30]`, and then accepts the callback's count of 1.  This theorem
evaluates the code at that failing input. -/
theorem C3_fill_offers_occupied_slot :
    fillBugState.WF ∧ fillBugState.Len = fillBugState.Cap ∧
    fillBugState.fillRegion = [20] ∧ fillBugState.absView = [20, 30] ∧
    (fillBugState.Fill fun s => (s, 1)).2 = 1 := by decide

/-- C4: `PushBatch` does NOT append every element it counts.  In the
capacity-3 state with store `[0, 2, 3]` and `right = elements[1:3]`
(`Len() = 2`, one free slot), `PushBatch [4, 5]` returns 1 but leaves
`Len()` at 2 and the logical sequence at `[2, 3]`: the wrap-side
`copy(r.elements[len(r.left):], ...)` writes the store but `r.left` is
never re-sliced, so the counted element is not part of the ring.  This
theorem evaluates the code at that failing input. -/
theorem C4_pushBatch_counts_unappended :
    pushBatchBugState.WF ∧ pushBatchBugState.Len = 2 ∧
    pushBatchBugState.Cap = 3 ∧
    (pushBatchBugState.PushBatch [4, 5]).2 = 1 ∧
    (pushBatchBugState.PushBatch [4, 5]).1.Len = 2 ∧
    (pushBatchBugState.PushBatch [4, 5]).1.absView = [2, 3] := by decide

/-- C5 counterexample: `Limit (-1)` executes `r.right[:-1]`, which panics
in Go — modelled by `LimitChecked` returning `none` — so the claim that no
operation panics, including `Limit(n)` with a negative argument, is false
as stated. -/
theorem C5_counterexample_limit_negative_panics :
    (Ring.NewRing Int 3).LimitChecked (-1) = none := by decide

/-- C5 (amended): on well-formed states no Ring operation panics EXCEPT
`Limit` with a negative argument.  `PopFront`, `PopIndex(i)` and
`PeekIndex(i)` complete normally for every index — including negative and
oversized ones, returning the documented false/zero results — `Limit(n)`
completes normally for every `n ≥ 0`, and repeated `Reset` is a no-op;
capacity zero is included since the statement covers all well-formed
rings. -/
theorem C5_no_panic_except_negative_limit (α : Type) [Inhabited α] (r : Ring α)
    (h : r.WF) (i lim : Int) (hlim : 0 ≤ lim) :
    r.PopFrontChecked = some r.PopFront ∧
    r.PopIndexChecked i = some (r.PopIndex i) ∧
    r.PeekIndexChecked i = some (r.PeekIndex i) ∧
    (r.LimitChecked lim).isSome = true ∧
    r.Reset.Reset = r.Reset := by
  obtain ⟨h1, h2, h3, h4⟩ := h
  have hwf : r.WF := ⟨h1, h2, h3, h4⟩
  have hpfc : r.PopFrontChecked = some r.PopFront := by
    unfold Ring.PopFrontChecked
    by_cases hz : r.rightLen = 0
    · rw [if_pos hz]
      unfold Ring.PopFront
      rw [if_pos hz]
    · rw [if_neg hz, if_pos (by omega)]
  refine ⟨hpfc, ?_, ?_, ?_, ?_⟩
  · unfold Ring.PopIndexChecked
    by_cases h0 : i = 0
    · rw [if_pos h0, hpfc, h0]
      unfold Ring.PopIndex
      rw [if_pos rfl]
    · rw [if_neg h0]
      by_cases hout : i < 0 ∨ (r.Len : Int) ≤ i
      · rw [if_pos hout, Ring.PopIndex_out r i hwf hout]
      · rw [if_neg hout]
        push_neg at hout
        have hlen2 : i.toNat < r.leftLen + r.rightLen := by
          have hx := hout.2
          simp only [Ring.Len] at hx
          omega
        dsimp only
        by_cases hbr : r.rightLen ≤ i.toNat
        · rw [if_pos hbr, if_pos (by omega)]
        · rw [if_neg hbr, if_pos (by omega)]
  · unfold Ring.PeekIndexChecked
    by_cases h0 : i = 0
    · rw [if_pos h0, h0]
      by_cases hz : r.rightLen = 0
      · rw [if_pos hz]
        unfold Ring.PeekIndex Ring.PeekFront
        rw [if_pos rfl, if_pos hz]
      · rw [if_neg hz, if_pos (by omega)]
        unfold Ring.PeekIndex
        rw [if_pos rfl]
    · rw [if_neg h0]
      by_cases hout : i < 0 ∨ (r.Len : Int) ≤ i
      · rw [if_pos hout, Ring.PeekIndex_out r i hwf hout]
      · rw [if_neg hout]
        push_neg at hout
        have hlen2 : i.toNat < r.leftLen + r.rightLen := by
          have hx := hout.2
          simp only [Ring.Len] at hx
          omega
        dsimp only
        by_cases hbr : r.rightLen ≤ i.toNat
        · rw [if_pos hbr, if_pos (by omega)]
        · rw [if_neg hbr, if_pos (by omega)]
  · unfold Ring.LimitChecked
    by_cases hle : (r.Len : Int) ≤ lim
    · rw [if_pos hle]
      rfl
    · rw [if_neg hle]
      have hlen2 : lim < (r.leftLen : Int) + r.rightLen := by
        push_neg at hle
        simp only [Ring.Len] at hle
        omega
      by_cases hex : lim - r.rightLen ≤ 0
      · rw [if_pos hex, if_neg (by omega)]
        rfl
      · rw [if_neg hex, if_neg (by omega)]
        rfl
  · unfold Ring.Reset
    simp

/-- C5 witness: the amended no-panic theorem instantiated at the concrete
full capacity-2 ring `fillBugState`, index 1 and limit 1. -/
theorem C5_witness :
    fillBugState.WF ∧ 0 ≤ (1 : Int) ∧
    (fillBugState.PopFrontChecked = some fillBugState.PopFront ∧
      fillBugState.PopIndexChecked 1 = some (fillBugState.PopIndex 1) ∧
      fillBugState.PeekIndexChecked 1 = some (fillBugState.PeekIndex 1) ∧
      (fillBugState.LimitChecked 1).isSome = true ∧
      fillBugState.Reset.Reset = fillBugState.Reset) :=
  ⟨by decide, by decide,
    C5_no_panic_except_negative_limit Int fillBugState (by decide) 1 1 (by decide)⟩

/-- C6: `PopIndex(i)` returns ok = false and leaves the ring unchanged
exactly when `i` is outside `[0, Len())`; for `i` in range it removes and
returns the element at 0-based logical index `i`, the remaining logical
sequence is the original with position `i` spliced out (relative order
kept), `Len()` drops by one; and `PopIndex 0` equals `PopFront`. -/
theorem C6_popIndex_spec (α : Type) [Inhabited α] (r : Ring α) (i : Int)
    (h : r.WF) :
    (0 ≤ i → i < (r.Len : Int) →
      (r.PopIndex i).2 = (r.absView.getD i.toNat default, true) ∧
      (r.PopIndex i).1.absView
        = r.absView.take i.toNat ++ r.absView.drop (i.toNat + 1) ∧
      (r.PopIndex i).1.Len = r.Len - 1) ∧
    ((i < 0 ∨ (r.Len : Int) ≤ i) → r.PopIndex i = (r, default, false)) ∧
    r.PopIndex 0 = r.PopFront := by
  refine ⟨fun h0 hl => ?_, fun hout => Ring.PopIndex_out r i h hout, ?_⟩
  · obtain ⟨hv, _, habs, _, hlen⟩ := Ring.PopIndex_in r i h h0 hl
    exact ⟨hv, habs, hlen⟩
  · unfold Ring.PopIndex
    rw [if_pos rfl]

/-- C6 witness: on the capacity-5 ring holding `1..5`, `PopIndex 2`
returns `(3, true)` and leaves logical order `[1, 2, 4, 5]` with
`Len() = 4`, instantiating the C6 theorem at index 2. -/
theorem C6_witness :
    ringFive.WF ∧
    ((0 ≤ (2 : Int) → (2 : Int) < (ringFive.Len : Int) →
      (ringFive.PopIndex 2).2 = (ringFive.absView.getD (2 : Int).toNat default, true) ∧
      (ringFive.PopIndex 2).1.absView
        = ringFive.absView.take (2 : Int).toNat
          ++ ringFive.absView.drop ((2 : Int).toNat + 1) ∧
      (ringFive.PopIndex 2).1.Len = ringFive.Len - 1) ∧
    (((2 : Int) < 0 ∨ (ringFive.Len : Int) ≤ (2 : Int)) →
      ringFive.PopIndex 2 = (ringFive, default, false)) ∧
    ringFive.PopIndex 0 = ringFive.PopFront) ∧
    (ringFive.PopIndex 2).2 = (3, true) ∧
    (ringFive.PopIndex 2).1.absView = [1, 2, 4, 5] ∧
    (ringFive.PopIndex 2).1.Len = 4 :=
  ⟨by decide, C6_popIndex_spec Int ringFive 2 (by decide), by decide⟩

/-- C7: `PushBack(v)` appends `v` at the logical end and returns true
whenever `Len() < Cap()`; when the ring is full it returns false and the
state is completely unchanged (no partial effect). -/
theorem C7_pushBack_spec (α : Type) [Inhabited α] (r : Ring α) (v : α)
    (h : r.WF) :
    (r.Len < r.Cap →
      (r.PushBack v).2 = true ∧
      (r.PushBack v).1.absView = r.absView ++ [v] ∧
      (r.PushBack v).1.Len = r.Len + 1) ∧
    (r.Cap ≤ r.Len → r.PushBack v = (r, false)) := by
  refine ⟨fun hlt => ?_, fun hfull => Ring.PushBack_full r v h hfull⟩
  obtain ⟨hok, _, habs, _, hlen⟩ := Ring.PushBack_ok r v h hlt
  exact ⟨hok, habs, hlen⟩

/-- C7 witness: the capacity-3 scenario — pushes of 1, 2, 3 succeed, a
fourth push fails, `PopFront` yields `(1, true)`, a push of 4 succeeds, a
push of 5 fails, and `Copy` into a 3-slot buffer yields `[2, 3, 4]` — with
the C7 theorem instantiated at the refilled full state and value 5. -/
theorem C7_witness :
    ringC7.WF ∧
    ((ringC7.Len < ringC7.Cap →
      (ringC7.PushBack 5).2 = true ∧
      (ringC7.PushBack 5).1.absView = ringC7.absView ++ [5] ∧
      (ringC7.PushBack 5).1.Len = ringC7.Len + 1) ∧
    (ringC7.Cap ≤ ringC7.Len → ringC7.PushBack 5 = (ringC7, false))) ∧
    (((Ring.NewRing Int 3).PushBack 1).2 = true ∧
      (((Ring.NewRing Int 3).PushBack 1).1.PushBack 2).2 = true ∧
      ((((Ring.NewRing Int 3).PushBack 1).1.PushBack 2).1.PushBack 3).2 = true ∧
      (((((Ring.NewRing Int 3).PushBack 1).1.PushBack 2).1.PushBack 3).1.PushBack 4).2
        = false ∧
      ((((((Ring.NewRing Int 3).PushBack 1).1.PushBack 2).1.PushBack
        3).1.PopFront).2 : Int × Bool) = (1, true) ∧
      ((((((Ring.NewRing Int 3).PushBack 1).1.PushBack 2).1.PushBack
        3).1.PopFront).1.PushBack 4).2 = true ∧
      (ringC7.PushBack 5).2 = false ∧
      (ringC7.Copy [0, 0, 0]).2 = ([2, 3, 4], 3)) :=
  ⟨by decide, C7_pushBack_spec Int ringC7 5 (by decide), by decide⟩

/-- C8: after `Compact()` the occupied elements form one contiguous region
starting at physical offset 0 of the backing store (`elements.take Len`
is the logical sequence, the `right` view starts at 0 and covers it), the
wrap (`left`) view is empty, and both `Len()` and the logical sequence are
unchanged; capacity is unchanged too. -/
theorem C8_compact_spec (α : Type) [Inhabited α] (r : Ring α) (h : r.WF) :
    (r.Compact).absView = r.absView ∧
    (r.Compact).elements.take r.Len = r.absView ∧
    (r.Compact).rightStart = 0 ∧ (r.Compact).leftLen = 0 ∧
    (r.Compact).rightLen = r.Len ∧ (r.Compact).Len = r.Len ∧
    (r.Compact).elements.length = r.elements.length := by
  obtain ⟨s1, s2, s3, s4, s5, s6, s7, _⟩ := Ring.Compact_spec r h
  exact ⟨s1, s2, s3, s4, s5, s6, s7⟩

/-- C8 witness: compacting the wrapped full capacity-2 state (store
`[30, 20]`, logical order `[20, 30]`) lays the store out as `[20, 30]`,
instantiating the C8 theorem there. -/
theorem C8_witness :
    fillBugState.WF ∧
    (fillBugState.Compact.absView = fillBugState.absView ∧
      fillBugState.Compact.elements.take fillBugState.Len = fillBugState.absView ∧
      fillBugState.Compact.rightStart = 0 ∧ fillBugState.Compact.leftLen = 0 ∧
      fillBugState.Compact.rightLen = fillBugState.Len ∧
      fillBugState.Compact.Len = fillBugState.Len ∧
      fillBugState.Compact.elements.length = fillBugState.elements.length) ∧
    fillBugState.Compact.elements = [20, 30] :=
  ⟨by decide, C8_compact_spec Int fillBugState (by decide), by decide⟩

/-- C9: the read-only operations — `Copy`, `PeekFront`, `PeekIndex`,
`Scan`, and the spec-modelled `All` — return the receiver state unchanged,
so neither `Len()` nor the logical sequence observed afterwards differs
from before, for every state and every argument. -/
theorem C9_readonly_frame (α : Type) [Inhabited α] (r : Ring α) (i : Int)
    (out : List α) (fn : α → Bool) :
    (r.Copy out).1.Len = r.Len ∧ (r.Copy out).1.absView = r.absView ∧
    (r.PeekFront).1.Len = r.Len ∧ (r.PeekFront).1.absView = r.absView ∧
    (r.PeekIndex i).1.Len = r.Len ∧ (r.PeekIndex i).1.absView = r.absView ∧
    (r.Scan fn).1.Len = r.Len ∧ (r.Scan fn).1.absView = r.absView ∧
    (r.All).1.Len = r.Len ∧ (r.All).1.absView = r.absView := by
  have hpf : (r.PeekFront).1 = r := by
    unfold Ring.PeekFront
    split <;> rfl
  have hpeek : (r.PeekIndex i).1 = r := by
    unfold Ring.PeekIndex Ring.PeekFront
    dsimp only
    split
    · split <;> rfl
    · split
      · rfl
      · split <;> rfl
  have hscan : (r.Scan fn).1 = r := by
    unfold Ring.Scan
    split
    · rfl
    · split <;> rfl
  exact ⟨rfl, rfl, by rw [hpf], by rw [hpf], by rw [hpeek], by rw [hpeek],
    by rw [hscan], by rw [hscan], rfl, rfl⟩

/-- C10: after every successful `PopFront`, and after every successful
`PopIndex`, the backing-store slot vacated by the removal holds the zero
value of the element type: `PopFront` and the in-`right` case of
`PopIndex` zero `right`'s old start slot, the in-`left` case zeroes
`left`'s old last slot, and `PopIndex 0` delegates to `PopFront`. -/
theorem C10_pop_zeroes_vacated_slot (α : Type) [Inhabited α] (r : Ring α)
    (i : Int) (h : r.WF) :
    (0 < r.Len → (r.PopFront).1.elements[r.rightStart]? = some default) ∧
    (0 < i → i < (r.Len : Int) → i.toNat < r.rightLen →
      (r.PopIndex i).1.elements[r.rightStart]? = some default) ∧
    (0 < i → i < (r.Len : Int) → r.rightLen ≤ i.toNat →
      (r.PopIndex i).1.elements[r.leftLen - 1]? = some default) ∧
    r.PopIndex 0 = r.PopFront := by
  refine ⟨fun hp => (Ring.PopFront_ok r h hp).2.2.2.2.2,
    fun hi hl hn => (Ring.PopIndex_zeroes r i h hi hl).1 hn,
    fun hi hl hn => (Ring.PopIndex_zeroes r i h hi hl).2 hn, ?_⟩
  unfold Ring.PopIndex
  rw [if_pos rfl]

/-- C10 witness: the zeroing theorem instantiated at the capacity-3 state
with store `[0, 2, 3]` and `right = elements[1:3]`, index 1 (an in-`right`
removal). -/
theorem C10_witness :
    pushBatchBugState.WF ∧
    ((0 < pushBatchBugState.Len →
      (pushBatchBugState.PopFront).1.elements[pushBatchBugState.rightStart]?
        = some default) ∧
    (0 < (1 : Int) → (1 : Int) < (pushBatchBugState.Len : Int) →
      (1 : Int).toNat < pushBatchBugState.rightLen →
      (pushBatchBugState.PopIndex 1).1.elements[pushBatchBugState.rightStart]?
        = some default) ∧
    (0 < (1 : Int) → (1 : Int) < (pushBatchBugState.Len : Int) →
      pushBatchBugState.rightLen ≤ (1 : Int).toNat →
      (pushBatchBugState.PopIndex 1).1.elements[pushBatchBugState.leftLen - 1]?
        = some default) ∧
    pushBatchBugState.PopIndex 0 = pushBatchBugState.PopFront) :=
  ⟨by decide, C10_pop_zeroes_vacated_slot Int pushBatchBugState 1 (by decide)⟩

end RingProof
